import Mathlib

/-!
Verification of the eCFR chapter word-count ingestion pipeline
(`ingestion-script/local_title.py`).

The pipeline downloads one XML document per CFR title, locates the
title-level division, extracts every chapter-level division, normalizes
its text, computes per-chapter statistics, and persists one row per
chapter inside a per-title database transaction.

This file embeds that pipeline shallowly:
* strings are Lean `String`s (lists of characters); the regex passes of
  `clean_text` become explicit character-list scanners with the same
  semantics (leftmost match of a markup fragment, whitespace-run
  collapse, end trimming);
* the parsed XML tree (`xml.etree.ElementTree`) becomes the inductive
  `Elem` with tag, attributes, leading text, children and tail text;
* the fallible heading access (`heading_el.text.strip()` where `text`
  may be `None`) returns `Except`;
* the database becomes a committed row list; connection handling is an
  explicit outcome record (`connClosed`); the network fetch becomes an
  oracle `Env.fetch`, and per-statement failures become Boolean oracles.
-/

set_option maxHeartbeats 4000000

/-- The six ASCII characters matched by the whitespace class used by
`re.sub` and by `str.strip` / `str.split` on the data in this pipeline. -/
def isWsC (c : Char) : Bool :=
  c == ' ' || c == '\t' || c == '\n' || c == '\r' || c == '\x0b' || c == '\x0c'

/-- Scanner for the first regex pass of `clean_text`
(substitute every fragment matching a markup tag by one space).
In state `none` the scanner copies characters until it sees an opening
angle bracket; in state `some buf` it has consumed an opening bracket
and buffers the (reversed) interior until the first closing bracket.
A nonempty interior closed by a bracket is a match and becomes a space;
an immediately closed pair has an empty interior and does not match;
an unclosed opening bracket is flushed verbatim at the end of input. -/
def stripTagsAux : Option (List Char) → List Char → List Char
  | none, [] => []
  | none, c :: rest =>
      if c = '<' then stripTagsAux (some []) rest else c :: stripTagsAux none rest
  | some buf, [] => '<' :: buf.reverse
  | some buf, c :: rest =>
      if c = '>' then
        match buf with
        | [] => '<' :: '>' :: stripTagsAux none rest
        | _ :: _ => ' ' :: stripTagsAux none rest
      else stripTagsAux (some (c :: buf)) rest

/-- First pass of `clean_text`: replace markup fragments by spaces. -/
def stripTags (l : List Char) : List Char := stripTagsAux none l

/-- Second pass of `clean_text`: collapse every run of whitespace
characters to a single space (the whitespace-run substitution). -/
def collapseWs : List Char → List Char
  | [] => []
  | [c] => if isWsC c then [' '] else [c]
  | a :: b :: rest =>
      if isWsC a then
        (if isWsC b then collapseWs (b :: rest) else ' ' :: collapseWs (b :: rest))
      else a :: collapseWs (b :: rest)

/-- Drop trailing whitespace characters. -/
def pyDropEndWs (l : List Char) : List Char := (l.reverse.dropWhile isWsC).reverse

/-- The `str.strip` method: drop leading and trailing whitespace. -/
def pyStrip (l : List Char) : List Char := pyDropEndWs (l.dropWhile isWsC)

/-- `str.strip` on a `String`. -/
def pyStripStr (s : String) : String := ⟨pyStrip s.data⟩

/-- `clean_text` from the source: strip markup fragments, collapse
whitespace runs to single spaces, trim both ends. -/
def clean_text (s : String) : String := ⟨pyStrip (collapseWs (stripTags s.data))⟩

/-- Scanner for `str.split()` with no separator: accumulate the current
token (reversed) and emit it at each whitespace boundary, discarding
empty tokens. -/
def wsToksAux : List Char → List Char → List (List Char)
  | acc, [] => if acc.isEmpty then [] else [acc.reverse]
  | acc, c :: rest =>
      if isWsC c then
        (if acc.isEmpty then wsToksAux [] rest else acc.reverse :: wsToksAux [] rest)
      else wsToksAux (c :: acc) rest

/-- The maximal whitespace-free runs of a character list, in order:
the semantics of `str.split()` with no argument. -/
def wsToks (l : List Char) : List (List Char) := wsToksAux [] l

/-- `word_count` from the source: `0` for a falsy (empty) string, else
the number of tokens of `str.split()`. -/
def word_count (s : String) : Nat :=
  if s.data.isEmpty then 0 else (wsToks s.data).length

/-- Whether the first argument is a leading segment of the second. -/
def startsWithL : List Char → List Char → Bool
  | [], _ => true
  | _ :: _, [] => false
  | a :: as, b :: bs => a == b && startsWithL as bs

/-- Whether the first argument is a trailing segment of the second
(`str.endswith`). -/
def endsWithL (hay suf : List Char) : Bool := startsWithL suf.reverse hay.reverse

/-- The Python `in` test on strings: the needle occurs contiguously
somewhere in the haystack. -/
def strContainsL (needle : List Char) : List Char → Bool
  | [] => startsWithL needle []
  | c :: t => startsWithL needle (c :: t) || strContainsL needle t

/-- A parsed XML element as produced by `xml.etree.ElementTree`:
tag, attribute list, leading text (`text`, possibly absent), children,
and tail text following the closing tag (possibly absent). -/
inductive Elem where
  | mk (tag : String) (attrib : List (String × String)) (text : Option String)
       (children : List Elem) (tail : Option String)

def Elem.tag : Elem → String
  | .mk t _ _ _ _ => t

def Elem.attrib : Elem → List (String × String)
  | .mk _ a _ _ _ => a

def Elem.text : Elem → Option String
  | .mk _ _ x _ _ => x

def Elem.children : Elem → List Elem
  | .mk _ _ _ ch _ => ch

def Elem.tail : Elem → Option String
  | .mk _ _ _ _ tl => tl

mutual
def elemDecEq : (a b : Elem) → Decidable (a = b)
  | .mk t1 a1 x1 ch1 tl1, .mk t2 a2 x2 ch2 tl2 =>
    if h1 : t1 = t2 then
      if h2 : a1 = a2 then
        if h3 : x1 = x2 then
          match elemListDecEq ch1 ch2 with
          | isTrue h4 =>
            if h5 : tl1 = tl2 then isTrue (by rw [h1, h2, h3, h4, h5])
            else isFalse (by intro h; injection h; contradiction)
          | isFalse h4 => isFalse (by intro h; injection h; contradiction)
        else isFalse (by intro h; injection h; contradiction)
      else isFalse (by intro h; injection h; contradiction)
    else isFalse (by intro h; injection h; contradiction)
def elemListDecEq : (a b : List Elem) → Decidable (a = b)
  | [], [] => isTrue rfl
  | [], _ :: _ => isFalse (by intro h; injection h)
  | _ :: _, [] => isFalse (by intro h; injection h)
  | x :: xs, y :: ys =>
    match elemDecEq x y with
    | isTrue h1 =>
      match elemListDecEq xs ys with
      | isTrue h2 => isTrue (by rw [h1, h2])
      | isFalse h2 => isFalse (by intro h; injection h; contradiction)
    | isFalse h1 => isFalse (by intro h; injection h; contradiction)
end

instance : DecidableEq Elem := elemDecEq

mutual
/-- The inner helper `extract_text` of `parse_chapters_for_wordcount`:
the element's leading text (when truthy) followed by a space, then for
each child its recursive text followed by the child's tail text (when
truthy) and a space. -/
def extract_text : Elem → String
  | .mk _ _ txt ch _ =>
      (match txt with
       | some t => if t ≠ "" then t ++ " " else ""
       | none => "") ++ extractKids ch
def extractKids : List Elem → String
  | [] => ""
  | c :: cs =>
      extract_text c ++
      (match c.tail with
       | some t => if t ≠ "" then t ++ " " else ""
       | none => "") ++ extractKids cs
end

/-- The textual pieces contributed by one optional text node: nothing
when the node is absent or empty, otherwise the text itself. -/
def optPiece : Option String → List String
  | some t => if t = "" then [] else [t]
  | none => []

mutual
/-- All textual content of a subtree in document order: the element's
leading text, then for each child its own pieces followed by the
child's tail text.  This is the specification-side description of what
the Text Normalizer must reassemble. -/
def textPieces : Elem → List String
  | .mk _ _ txt ch _ => optPiece txt ++ kidPieces ch
def kidPieces : List Elem → List String
  | [] => []
  | c :: cs => textPieces c ++ optPiece c.tail ++ kidPieces cs
end

/-- Concatenate textual pieces, each followed by one space: the shape
of the string `extract_text` builds. -/
def catPieces : List String → String
  | [] => ""
  | s :: rest => s ++ " " ++ catPieces rest

mutual
/-- Document-order (pre-order) traversal of a subtree, the element
itself first: the semantics of `Element.iter()`. -/
def preorderE (e : Elem) : List Elem :=
  match e with
  | .mk t a x ch tl => .mk t a x ch tl :: preorderKids ch
def preorderKids : List Elem → List Elem
  | [] => []
  | c :: cs => preorderE c ++ preorderKids cs
end

/-- All proper descendants of an element in document order: the
elements searched by `find` with a descendant path, and the subtree
below an element (element excluded). -/
def strictDescList (e : Elem) : List Elem := preorderKids e.children

/-- Attribute lookup, `element.attrib.get(k)`. -/
def attrGet (e : Elem) (k : String) : Option String :=
  (e.attrib.find? (fun p => p.fst == k)).map (fun p => p.snd)

/-- The title-level division test of `root.find` with path
`.//DIV1[@TYPE="TITLE"]`: exact tag and type attribute. -/
def isTitleElem (e : Elem) : Bool :=
  e.tag == "DIV1" && attrGet e "TYPE" == some "TITLE"

/-- `root.find('.//DIV1[@TYPE="TITLE"]')`: the first matching proper
descendant in document order, if any. -/
def findTitleElem (doc : Elem) : Option Elem := (strictDescList doc).find? isTitleElem

/-- The chapter test of the extraction loop: tag ends with `DIV3` and
the `TYPE` attribute equals `CHAPTER`. -/
def isChapterElem (e : Elem) : Bool :=
  endsWithL e.tag.data ("DIV3".data) && attrGet e "TYPE" == some "CHAPTER"

/-- `chapter.attrib.get("N", "")`. -/
def attrN (e : Elem) : String := (attrGet e "N").getD ""

/-- `chapter.find("HEAD")`: first direct child tagged `HEAD`. -/
def findHead (e : Elem) : Option Elem := e.children.find? (fun c => c.tag == "HEAD")

/-- `heading_el.text.strip() if heading_el is not None else ""`.
When the heading element exists but its text node is absent, the
attribute access on `None` raises. -/
def headingOf (e : Elem) : Except String String :=
  match findHead e with
  | none => Except.ok ""
  | some h =>
    match h.text with
    | none => Except.error "AttributeError"
    | some t => Except.ok (pyStripStr t)

/-- Word count of one chapter subtree: extract, clean, count. -/
def wcOf (e : Elem) : Nat := word_count (clean_text (extract_text e))

/-- The generator body of `parse_chapters_for_wordcount`, run over the
document-order element list of the title subtree: yield a triple for
each chapter-tagged element; a failing heading access aborts the
iteration (the caller forces the generator with `list(...)`). -/
def chapterTriples : List Elem → Except String (List (String × String × Nat))
  | [] => Except.ok []
  | e :: rest =>
    if isChapterElem e then
      match headingOf e with
      | Except.error msg => Except.error msg
      | Except.ok h =>
        match chapterTriples rest with
        | Except.error msg => Except.error msg
        | Except.ok tl => Except.ok ((attrN e, h, wcOf e) :: tl)
    else chapterTriples rest

/-- `parse_chapters_for_wordcount` on an already-parsed document tree:
locate the title element among the proper descendants of the root (no
title element yields nothing, with a warning), then yield one triple
per chapter-tagged element of the title subtree in document order. -/
def parse_chapters_for_wordcount (doc : Elem) : Except String (List (String × String × Nat)) :=
  match findTitleElem doc with
  | none => Except.ok []
  | some te => chapterTriples (preorderE te)

/-- The chapter elements the extractor iterates over (the elements the
generator yields triples for), in document order. -/
def chapterElems (doc : Elem) : List Elem :=
  match findTitleElem doc with
  | none => []
  | some te => (preorderE te).filter isChapterElem

/-- No chapter-tagged element of the document has a chapter-tagged
element strictly below it: the schema assumption that chapters do not
nest within chapters. -/
def noNestedChapters (doc : Elem) : Bool :=
  (preorderE doc).all
    (fun a => !(isChapterElem a) || (strictDescList a).all (fun b => !(isChapterElem b)))

/-- One row of `ecfr_chapter_wordcount` as built by `insert_rows`. -/
structure Row where
  title : Nat
  chapter_identifier : String
  chapter_heading : String
  word_count : Nat
  character_count : Nat
  is_reserved : Bool
deriving DecidableEq

/-- `len(chapter_heading) if chapter_heading else 0`. -/
def char_count_of (h : String) : Nat := if h.data.isEmpty then 0 else h.data.length

/-- `"[Reserved]" in chapter_heading if chapter_heading else False`. -/
def is_reserved_of (h : String) : Bool :=
  if h.data.isEmpty then false else strContainsL ("[Reserved]".data) h.data

/-- Assemble one row from a parsed triple, as the insert loop does. -/
def mkRow (t : Nat) (tr : String × String × Nat) : Row :=
  ⟨t, tr.fst, tr.snd.fst, tr.snd.snd, char_count_of tr.snd.fst, is_reserved_of tr.snd.fst⟩

/-- The rows the pipeline produces for one title document: parse, then
apply the per-row computations of `insert_rows`. -/
def chapterRecords (t : Nat) (doc : Elem) : Except String (List Row) :=
  match parse_chapters_for_wordcount doc with
  | Except.error e => Except.error e
  | Except.ok trs => Except.ok (trs.map (mkRow t))

/-- Outcome of one `insert_rows` call: the committed rows afterwards,
whether `conn.close()` was reached, and the returned count or the
exception that escaped. -/
structure SinkOutcome where
  db : List Row
  connClosed : Bool
  result : Except String Nat

/-- The body of `insert_rows` after the connection is opened: execute
one `INSERT` per triple (each may raise, modelled by the oracle on the
statement index), then `commit` (which may raise), then close cursor
and connection.  On any raise the function is left immediately: nothing
is committed and the close calls are never reached. -/
def insertLoop (eo : Nat → Bool) (co : Bool) (t : Nat) (db : List Row) :
    Nat → List Row → List (String × String × Nat) → SinkOutcome
  | _, staged, [] =>
    if co then ⟨db ++ staged, true, Except.ok staged.length⟩
    else ⟨db, false, Except.error "commit failed"⟩
  | i, staged, tr :: rest =>
    if eo i then insertLoop eo co t db (i + 1) (staged ++ [mkRow t tr]) rest
    else ⟨db, false, Except.error "insert failed"⟩

/-- `insert_rows(title_number, rows)` against committed state `db`,
with failure oracles for the inserts and the commit. -/
def insert_rows (eo : Nat → Bool) (co : Bool) (t : Nat)
    (trs : List (String × String × Nat)) (db : List Row) : SinkOutcome :=
  insertLoop eo co t db 0 [] trs

/-- The run environment of `main`: the fetch-and-parse outcome per
title (a transport failure or unparseable markup is an error), and the
persistence failure oracles per title. -/
structure Env where
  fetch : Nat → Except String Elem
  execOk : Nat → Nat → Bool
  commitOk : Nat → Bool

/-- Fetch and parse one title: the part of the loop body before
`insert_rows`.  Either stage raising skips the rest of the body. -/
def titleRows (env : Env) (n : Nat) : Except String (List (String × String × Nat)) :=
  match env.fetch n with
  | Except.error e => Except.error e
  | Except.ok doc => parse_chapters_for_wordcount doc

/-- One iteration of the per-title loop of `main`: the `try` body with
its `except` clause — any error leaves the committed state as it was
and the loop continues. -/
def processTitle (env : Env) (db : List Row) (n : Nat) : List Row :=
  match titleRows env n with
  | Except.error _ => db
  | Except.ok trs => (insert_rows (env.execOk n) (env.commitOk n) n trs db).db

/-- `TITLES = range(1, 51)`. -/
def TITLES : List Nat := List.range' 1 50

/-- The full sweep of `main` over titles 1..50, starting from an empty
committed state. -/
def runMain (env : Env) : List Row := TITLES.foldl (processTitle env) []

/-- All insert statements of a batch of the given length succeed. -/
def allInsertsOk (eo : Nat → Bool) (k : Nat) : Bool := (List.range k).all eo

/-- Title `n` runs to a successful commit in this environment. -/
def titleOk (env : Env) (n : Nat) : Bool :=
  match titleRows env n with
  | Except.error _ => false
  | Except.ok trs => allInsertsOk (env.execOk n) trs.length && env.commitOk n

/-- The rows title `n` contributes to the committed state: its full
batch when every stage succeeds, nothing otherwise. -/
def contribOf (env : Env) (n : Nat) : List Row :=
  match titleRows env n with
  | Except.error _ => []
  | Except.ok trs =>
    if allInsertsOk (env.execOk n) trs.length && env.commitOk n then trs.map (mkRow n) else []

/-- Chapter I of the minimal end-to-end document: heading and one body
paragraph. -/
def chapOne : Elem :=
  Elem.mk "DIV3" [("N", "I"), ("TYPE", "CHAPTER")] none
    [Elem.mk "HEAD" [] (some "Chapter I - General") [] none,
     Elem.mk "P" [] (some "This part applies.") [] none] none

/-- Chapter II of the minimal end-to-end document: reserved heading,
empty body. -/
def chapTwo : Elem :=
  Elem.mk "DIV3" [("N", "II"), ("TYPE", "CHAPTER")] none
    [Elem.mk "HEAD" [] (some "Chapter II - [Reserved]") [] none] none

/-- The minimal end-to-end title document: a root whose title-level
division contains exactly the two chapters. -/
def demoDoc : Elem :=
  Elem.mk "ECFR" [] none
    [Elem.mk "DIV1" [("TYPE", "TITLE")] none [chapOne, chapTwo] none] none

/-- A chapter whose heading element is present but has no text node. -/
def headNoneChap : Elem :=
  Elem.mk "DIV3" [("N", "III"), ("TYPE", "CHAPTER")] none
    [Elem.mk "HEAD" [] none [] none] none

/-- A title document containing only `headNoneChap`. -/
def headNoneDoc : Elem :=
  Elem.mk "ECFR" [] none
    [Elem.mk "DIV1" [("TYPE", "TITLE")] none [headNoneChap] none] none

/-- A chapter with no heading element at all. -/
def noHeadChap : Elem :=
  Elem.mk "DIV3" [("N", "IV"), ("TYPE", "CHAPTER")] none [] none

/-- A chapter whose heading element has whitespace-only text. -/
def wsHeadChap : Elem :=
  Elem.mk "DIV3" [("N", "V"), ("TYPE", "CHAPTER")] none
    [Elem.mk "HEAD" [] (some "   ") [] none] none

/-- A chapter-tagged element nested inside another chapter. -/
def innerChap : Elem :=
  Elem.mk "DIV3" [("N", "B"), ("TYPE", "CHAPTER")] none
    [Elem.mk "HEAD" [] (some "Inner") [] none] none

/-- A chapter-tagged element containing `innerChap` in its subtree. -/
def outerChap : Elem :=
  Elem.mk "DIV3" [("N", "A"), ("TYPE", "CHAPTER")] none
    [Elem.mk "HEAD" [] (some "Outer") [] none, innerChap] none

/-- A title document whose title division contains nested chapters. -/
def nestedDoc : Elem :=
  Elem.mk "ECFR" [] none
    [Elem.mk "DIV1" [("TYPE", "TITLE")] none [outerChap] none] none

/-- The environment of the 404 scenario: fetching title 13 fails with
HTTP 404, every other title returns the minimal document and persists
without failure. -/
def env404 : Env :=
  ⟨fun n => if n == 13 then Except.error "Failed to fetch Title 13, HTTP 404"
            else Except.ok demoDoc,
   fun _ _ => true, fun _ => true⟩

deriving instance DecidableEq for Except

/-- A character list contains no matchable markup fragment: after any
opening angle bracket, either no closing bracket follows at all, or one
follows immediately (an empty interior, which the tag pattern rejects). -/
def NoTagP (l : List Char) : Prop :=
  ∀ a b, l = a ++ '<' :: b → ('>' ∉ b ∨ ∃ r, b = '>' :: r)

/-- No two adjacent whitespace characters anywhere in the list. -/
def NoAdjWs : List Char → Prop
  | [] => True
  | [_] => True
  | a :: b :: rest => ¬(isWsC a = true ∧ isWsC b = true) ∧ NoAdjWs (b :: rest)

/-! ## Claim C1: the minimal end-to-end scenario -/

/-- Claim C1 is false as stated: on the minimal two-chapter document
the pipeline does not produce the claimed records — the first record
has `character_count = 19` (the heading has 19 characters, not 20) and
the second has `word_count = 4` (the tokens `Chapter`, `II`, `-`,
`[Reserved]`), not 3. -/
theorem claim_C1_counterexample :
    ¬ (chapterRecords 1 demoDoc =
        Except.ok [⟨1, "I", "Chapter I - General", 7, 20, false⟩,
                   ⟨1, "II", "Chapter II - [Reserved]", 3, 23, true⟩]) := by
  decide

/-- Claim C1 (amended): on the minimal title document with the two
chapter divisions, the pipeline yields exactly the two records
`(1, "I", "Chapter I - General", word_count 7, character_count 19,
not reserved)` and `(1, "II", "Chapter II - [Reserved]", word_count 4,
character_count 23, reserved)`; word counts include the heading text. -/
theorem claim_C1 :
    chapterRecords 1 demoDoc =
      Except.ok [⟨1, "I", "Chapter I - General", 7, 19, false⟩,
                 ⟨1, "II", "Chapter II - [Reserved]", 4, 23, true⟩] := by
  decide

/-! ## Claim C2: missing or empty headings -/

/-- Claim C2 is false as stated: a chapter whose heading element is
present but has no text node does not yield an empty heading — the
attribute access on the absent text raises, and the whole title's
extraction fails. -/
theorem claim_C2_counterexample :
    headingOf headNoneChap = Except.error "AttributeError" ∧
    parse_chapters_for_wordcount headNoneDoc = Except.error "AttributeError" := by
  exact ⟨rfl, rfl⟩

/-- Claim C2 (amended): a chapter with no heading element yields the
empty heading without error, a heading element whose text is a present
whitespace-only string likewise trims to the empty heading, and the
empty heading gets `character_count = 0`; but a heading element with an
absent text node makes extraction raise (previous theorem). -/
theorem claim_C2 (c c' hd : Elem) (t : String)
    (h1 : findHead c = none)
    (h2 : findHead c' = some hd) (h3 : hd.text = some t)
    (h4 : pyStrip t.data = []) :
    headingOf c = Except.ok "" ∧ headingOf c' = Except.ok "" ∧
    char_count_of "" = 0 := by
  refine ⟨?_, ?_, rfl⟩
  · simp [headingOf, h1]
  · simp [headingOf, h2, h3, pyStripStr]
    apply String.ext
    simpa using h4

/-- Witness for the amended Claim C2 at concrete chapters. -/
theorem claim_C2_witness :
    (findHead noHeadChap = none ∧
     findHead wsHeadChap = some (Elem.mk "HEAD" [] (some "   ") [] none) ∧
     (Elem.mk "HEAD" [] (some "   ") [] none).text = some "   " ∧
     pyStrip ("   ".data) = []) ∧
    (headingOf noHeadChap = Except.ok "" ∧ headingOf wsHeadChap = Except.ok "" ∧
     char_count_of "" = 0) :=
  ⟨⟨rfl, rfl, rfl, by decide⟩,
   claim_C2 noHeadChap wsHeadChap (Elem.mk "HEAD" [] (some "   ") [] none) "   "
     rfl rfl rfl (by decide)⟩

/-! ## Claim C6: connection release -/

/-- Claim C6 is wrong about the code and right about the intent: the
source has no `try`/`finally` around the insert loop, so on the path
where an insert raises — and likewise where the commit raises — the
function exits without ever reaching `conn.close()`; only the fully
successful path closes the connection.  Evaluated here on a one-row
batch for title 7. -/
theorem claim_C6_bug :
    (insert_rows (fun _ => false) true 7 [("I", "Chapter I - General", 7)] []).connClosed
        = false ∧
    (insert_rows (fun _ => false) true 7 [("I", "Chapter I - General", 7)] []).result
        = Except.error "insert failed" ∧
    (insert_rows (fun _ => true) false 7 [("I", "Chapter I - General", 7)] []).connClosed
        = false ∧
    (insert_rows (fun _ => true) true 7 [("I", "Chapter I - General", 7)] []).connClosed
        = true :=
  ⟨rfl, rfl, rfl, rfl⟩

/-! ## Claim C5: per-title transactional persistence -/

/-- Committed-state characterization of the insert loop: starting at
statement index `i` with `staged` pending rows, the committed state
gains the staged and remaining rows exactly when every remaining insert
and the commit succeed, and is untouched otherwise. -/
theorem insertLoop_db (eo : Nat → Bool) (co : Bool) (t : Nat) (db : List Row) :
    ∀ (trs : List (String × String × Nat)) (i : Nat) (staged : List Row),
      (insertLoop eo co t db i staged trs).db =
        if ((List.range' i trs.length).all eo && co) = true
        then db ++ staged ++ trs.map (mkRow t) else db := by
  intro trs
  induction trs with
  | nil =>
    intro i staged
    by_cases hco : co <;> simp [insertLoop, hco]
  | cons tr rest ih =>
    intro i staged
    by_cases he : eo i
    · simp only [insertLoop, he, if_true]
      rw [ih (i + 1) (staged ++ [mkRow t tr])]
      simp [List.range'_succ, he, List.append_assoc]
    · simp [insertLoop, he, List.range'_succ]

/-- Claim C5: persistence is atomic at title granularity — the batch
for a title is committed in full exactly when every insert and the
final commit succeed, and the committed state is completely unchanged
when any statement of the batch fails. -/
theorem claim_C5 (eo : Nat → Bool) (co : Bool) (t : Nat)
    (trs : List (String × String × Nat)) (db : List Row) :
    (insert_rows eo co t trs db).db =
      if ((List.range trs.length).all eo && co) = true
      then db ++ trs.map (mkRow t) else db := by
  unfold insert_rows
  rw [insertLoop_db]
  simp [List.range_eq_range']

/-! ## Claim C8: word counting -/

/-- Every token emitted by the split scanner is nonempty and free of
whitespace characters, provided the running accumulator is. -/
theorem wsToksAux_props :
    ∀ (l acc : List Char), (∀ c ∈ acc, isWsC c = false) →
      ∀ t ∈ wsToksAux acc l, t ≠ [] ∧ ∀ c ∈ t, isWsC c = false := by
  intro l
  induction l with
  | nil =>
    intro acc hacc t ht
    by_cases hn : acc.isEmpty
    · simp [wsToksAux, hn] at ht
    · simp [wsToksAux, hn] at ht
      subst ht
      refine ⟨?_, ?_⟩
      · intro hrev
        rw [List.reverse_eq_nil_iff] at hrev
        rw [hrev] at hn
        simp at hn
      · intro c hc
        exact hacc c (List.mem_reverse.mp hc)
  | cons c rest ih =>
    intro acc hacc t ht
    by_cases hw : isWsC c
    · by_cases hn : acc.isEmpty
      · simp [wsToksAux, hw, hn] at ht
        exact ih [] (by simp) t ht
      · simp [wsToksAux, hw, hn] at ht
        rcases ht with ht | ht
        · subst ht
          refine ⟨?_, ?_⟩
          · intro hrev
            rw [List.reverse_eq_nil_iff] at hrev
            rw [hrev] at hn
            simp at hn
          · intro x hx
            exact hacc x (List.mem_reverse.mp hx)
        · exact ih [] (by simp) t ht
    · simp [wsToksAux, hw] at ht
      refine ih (c :: acc) ?_ t ht
      intro x hx
      rcases List.mem_cons.mp hx with hx | hx
      · rw [hx]; exact eq_false_of_ne_true (by simpa using hw)
      · exact hacc x hx

/-- Claim C8: `word_count` is the number of tokens of the whitespace
split, those tokens are exactly the nonempty whitespace-free runs, the
empty string counts 0 words, and the concrete example `"A B  C\n D"`
normalizes to `"A B C D"` with 4 words. -/
theorem claim_C8 (s : String) :
    word_count s = (wsToks s.data).length ∧
    (∀ t ∈ wsToks s.data, t ≠ [] ∧ ∀ c ∈ t, isWsC c = false) ∧
    word_count "" = 0 ∧
    clean_text "A B  C\n D" = "A B C D" ∧
    word_count (clean_text "A B  C\n D") = 4 := by
  refine ⟨?_, ?_, rfl, by decide, by decide⟩
  · unfold word_count
    by_cases he : s.data.isEmpty
    · have hd : s.data = [] := by simpa using he
      simp [he, hd, wsToks, wsToksAux]
    · simp [he]
  · exact wsToksAux_props s.data [] (by simp)

/-! ## Claim C9: the reserved-chapter flag -/

/-- `startsWithL` decides the leading-segment relation. -/
theorem startsWithL_iff (n : List Char) :
    ∀ h : List Char, startsWithL n h = true ↔ ∃ s, h = n ++ s := by
  induction n with
  | nil =>
    intro h
    simp [startsWithL]
  | cons a as ih =>
    intro h
    cases h with
    | nil =>
      constructor
      · intro hsw; simp [startsWithL] at hsw
      · rintro ⟨s, hs⟩; simp at hs
    | cons b bs =>
      constructor
      · intro hsw
        simp only [startsWithL, Bool.and_eq_true, beq_iff_eq] at hsw
        obtain ⟨hab, h2⟩ := hsw
        obtain ⟨s, hs⟩ := (ih bs).mp h2
        exact ⟨s, by rw [hab, hs]; rfl⟩
      · rintro ⟨s, hs⟩
        rw [List.cons_append] at hs
        injection hs with hb hbs
        simp only [startsWithL, Bool.and_eq_true, beq_iff_eq]
        exact ⟨hb.symm, (ih bs).mpr ⟨s, hbs⟩⟩

/-- `strContainsL` decides contiguous occurrence. -/
theorem strContainsL_iff (needle : List Char) :
    ∀ hay : List Char, strContainsL needle hay = true ↔ ∃ p s, hay = p ++ needle ++ s := by
  intro hay
  induction hay with
  | nil =>
    rw [strContainsL, startsWithL_iff]
    constructor
    · rintro ⟨s, hs⟩
      exact ⟨[], s, by simpa using hs⟩
    · rintro ⟨p, s, hs⟩
      have hs' := hs.symm
      rw [List.append_assoc, List.append_eq_nil] at hs'
      obtain ⟨hp, hns⟩ := hs'
      rw [List.append_eq_nil] at hns
      exact ⟨[], by simp [hns.1]⟩
  | cons c t ih =>
    rw [strContainsL]
    simp only [Bool.or_eq_true, startsWithL_iff, ih]
    constructor
    · rintro (⟨s, hs⟩ | ⟨p, s, hs⟩)
      · exact ⟨[], s, by simpa using hs⟩
      · exact ⟨c :: p, s, by rw [hs]; rfl⟩
    · rintro ⟨p, s, hs⟩
      cases p with
      | nil => exact Or.inl ⟨s, by simpa using hs⟩
      | cons p0 p' =>
        rw [List.cons_append, List.cons_append] at hs
        injection hs with h1 h2
        exact Or.inr ⟨p', s, h2⟩

/-- Claim C9: the reserved flag is set exactly when the heading
contains the literal marker `[Reserved]` contiguously anywhere, and the
empty (or absent, parsed as empty) heading is never reserved. -/
theorem claim_C9 (h : String) :
    (is_reserved_of h = true ↔ ∃ p s, h.data = p ++ ("[Reserved]".data) ++ s) ∧
    is_reserved_of "" = false := by
  refine ⟨?_, rfl⟩
  unfold is_reserved_of
  by_cases he : h.data.isEmpty
  · have hd : h.data = [] := by simpa using he
    simp only [he, if_true]
    constructor
    · intro hF; cases hF
    · rintro ⟨p, s, hs⟩
      rw [hd] at hs
      have hs' := hs.symm
      rw [List.append_assoc, List.append_eq_nil] at hs'
      have : ("[Reserved]".data : List Char) = [] := by
        have := hs'.2
        rw [List.append_eq_nil] at this
        exact this.1
      simp at this
  · simp only [he, if_false]
    exact strContainsL_iff _ h.data

/-! ## Claim C3: no double extraction of nested chapters -/

mutual
/-- Pre-order membership is transitive through an element. -/
theorem mem_preorder_trans : ∀ (x t c : Elem),
    t ∈ preorderE c → x ∈ preorderE t → x ∈ preorderE c
  | x, t, .mk tg ats txt ch tl => by
    intro ht hx
    rw [preorderE] at ht ⊢
    rcases List.mem_cons.mp ht with h | h
    · rw [h, preorderE] at hx
      exact hx
    · exact List.mem_cons_of_mem _ (mem_preorderKids_trans x t ch h hx)
/-- Pre-order membership is transitive through a child list. -/
theorem mem_preorderKids_trans : ∀ (x t : Elem) (cs : List Elem),
    t ∈ preorderKids cs → x ∈ preorderE t → x ∈ preorderKids cs
  | x, t, [] => by
    intro ht hx
    rw [preorderKids] at ht
    cases ht
  | x, t, c :: cs => by
    intro ht hx
    rw [preorderKids] at ht ⊢
    rcases List.mem_append.mp ht with h | h
    · exact List.mem_append_left _ (mem_preorder_trans x t c h hx)
    · exact List.mem_append_right _ (mem_preorderKids_trans x t cs h hx)
end

/-- Every element the extractor yields a triple for is chapter-tagged
and lies in the document-order traversal of the whole document. -/
theorem chapterElems_sub (doc : Elem) (a : Elem) (ha : a ∈ chapterElems doc) :
    isChapterElem a = true ∧ a ∈ preorderE doc := by
  unfold chapterElems at ha
  cases hf : findTitleElem doc with
  | none => rw [hf] at ha; cases ha
  | some te =>
    rw [hf] at ha
    obtain ⟨hmem, hchap⟩ := List.mem_filter.mp ha
    refine ⟨hchap, ?_⟩
    have hte : te ∈ strictDescList doc := by
      unfold findTitleElem at hf
      exact List.mem_of_find?_eq_some hf
    unfold strictDescList at hte
    have hkids : a ∈ preorderKids doc.children :=
      mem_preorderKids_trans a te doc.children hte hmem
    cases doc with
    | mk tg ats txt ch tl =>
      rw [preorderE]
      exact List.mem_cons_of_mem _ hkids

/-- Claim C3 is false as stated: on a title document whose title
division contains a chapter-tagged division nested inside another
chapter-tagged division, the extractor yields both elements, and the
inner one lies in the subtree of the outer one. -/
theorem claim_C3_counterexample :
    outerChap ∈ chapterElems nestedDoc ∧ innerChap ∈ chapterElems nestedDoc ∧
    outerChap ≠ innerChap ∧ innerChap ∈ strictDescList outerChap := by
  decide

/-- Claim C3 (amended): on documents satisfying the schema assumption
that no chapter-tagged element has a chapter-tagged element strictly
below it, the extractor never yields an element nested inside the
subtree of another yielded chapter element. -/
theorem claim_C3 (doc : Elem) (hno : noNestedChapters doc = true) :
    ∀ a ∈ chapterElems doc, ∀ b ∈ chapterElems doc, b ∉ strictDescList a := by
  intro a ha b hb hmem
  obtain ⟨hachap, hapre⟩ := chapterElems_sub doc a ha
  obtain ⟨hbchap, _⟩ := chapterElems_sub doc b hb
  unfold noNestedChapters at hno
  rw [List.all_eq_true] at hno
  have hline := hno a hapre
  rw [Bool.or_eq_true] at hline
  rcases hline with hline | hline
  · rw [hachap] at hline
    cases hline
  · rw [List.all_eq_true] at hline
    have := hline b hmem
    rw [hbchap] at this
    cases this

/-- Witness for the amended Claim C3 on the minimal two-chapter
document, whose chapters are not nested. -/
theorem claim_C3_witness :
    noNestedChapters demoDoc = true ∧
    (∀ a ∈ chapterElems demoDoc, ∀ b ∈ chapterElems demoDoc, b ∉ strictDescList a) :=
  ⟨by decide, claim_C3 demoDoc (by decide)⟩

/-! ## Claim C4: the Text Normalizer reassembles all text in order -/

/-- `catPieces` distributes over concatenation of piece lists. -/
theorem catPieces_append : ∀ a b : List String, catPieces (a ++ b) = catPieces a ++ catPieces b := by
  intro a b
  induction a with
  | nil => simp [catPieces]
  | cons s rest ih => simp [catPieces, ih, String.append_assoc]

/-- The one-piece contribution of an optional text node equals the
string the extraction helper appends for it. -/
theorem catPieces_optPiece (o : Option String) :
    catPieces (optPiece o) =
      (match o with
       | some t => if t ≠ "" then t ++ " " else ""
       | none => "") := by
  cases o with
  | none => rfl
  | some t =>
    by_cases ht : t = ""
    · simp [optPiece, catPieces, ht]
    · simp [optPiece, catPieces, ht]

mutual
/-- The extraction helper builds exactly the document-order textual
pieces of the subtree, each followed by one space: nothing is dropped,
nothing is inserted twice, and order is preserved. -/
theorem extract_text_eq_pieces : ∀ e : Elem, extract_text e = catPieces (textPieces e)
  | .mk tg ats txt ch tl => by
    have h1 : extract_text (.mk tg ats txt ch tl) =
        (match txt with
         | some t => if t ≠ "" then t ++ " " else ""
         | none => "") ++ extractKids ch := rfl
    have h2 : textPieces (.mk tg ats txt ch tl) = optPiece txt ++ kidPieces ch := rfl
    rw [h1, h2, catPieces_append, extractKids_eq_pieces ch, catPieces_optPiece]
/-- Child-list version of `extract_text_eq_pieces`. -/
theorem extractKids_eq_pieces : ∀ cs : List Elem, extractKids cs = catPieces (kidPieces cs)
  | [] => rfl
  | c :: cs => by
    have h1 : extractKids (c :: cs) =
        extract_text c ++
          (match c.tail with
           | some t => if t ≠ "" then t ++ " " else ""
           | none => "") ++ extractKids cs := rfl
    have h2 : kidPieces (c :: cs) = textPieces c ++ optPiece c.tail ++ kidPieces cs := rfl
    rw [h1, h2, catPieces_append, catPieces_append,
        extract_text_eq_pieces c, extractKids_eq_pieces cs, catPieces_optPiece]
end

/-- Claim C4: the Text Normalizer reconstructs the concatenation of all
textual content of a subtree in document order (leading text, then per
child its recursive text followed by the tail text), with no piece
dropped and no tail inserted twice, each piece separated before the
whitespace-collapsing and trimming pass; an empty subtree yields the
empty string, and absent text or tail nodes never make it fail. -/
theorem claim_C4 (e : Elem) :
    extract_text e = catPieces (textPieces e) ∧
    clean_text (extract_text e) = clean_text (catPieces (textPieces e)) ∧
    extract_text (Elem.mk "EMPTY" [] none [] none) = "" ∧
    clean_text "" = "" :=
  ⟨extract_text_eq_pieces e, by rw [extract_text_eq_pieces e], rfl, rfl⟩

/-! ## Claim C7: per-title failure isolation in the main loop -/

/-- One loop iteration appends exactly the title's contribution. -/
theorem processTitle_eq (env : Env) (db : List Row) (n : Nat) :
    processTitle env db n = db ++ contribOf env n := by
  unfold processTitle contribOf
  cases h : titleRows env n with
  | error e => simp
  | ok trs =>
    simp only []
    unfold insert_rows
    rw [insertLoop_db]
    unfold allInsertsOk
    rw [List.range_eq_range']
    by_cases hc : ((List.range' 0 trs.length).all (env.execOk n) && env.commitOk n) = true
    · simp [hc]
    · simp [hc]

/-- The fold of the per-title loop appends the flattened per-title
contributions, in title order. -/
theorem runMain_foldl (env : Env) :
    ∀ (ts : List Nat) (db : List Row),
      ts.foldl (processTitle env) db = db ++ (ts.map (contribOf env)).flatten := by
  intro ts
  induction ts with
  | nil => intro db; simp
  | cons n rest ih =>
    intro db
    rw [List.foldl_cons, processTitle_eq, ih]
    simp [List.append_assoc]

/-- Every row a title contributes carries that title's number. -/
theorem contrib_title (env : Env) (n : Nat) :
    ∀ r ∈ contribOf env n, r.title = n := by
  intro r hr
  unfold contribOf at hr
  split at hr
  · cases hr
  · split at hr
    · obtain ⟨tr, _, hrw⟩ := List.mem_map.mp hr
      rw [← hrw]
      rfl
    · cases hr

/-- A title that fails at any stage contributes no rows. -/
theorem contrib_nil_of_fail (env : Env) (n : Nat) (h : titleOk env n = false) :
    contribOf env n = [] := by
  unfold titleOk at h
  unfold contribOf
  split
  · rfl
  · next trs heq =>
    simp only [heq] at h
    simp [h]

/-- Claim C7: in any run over the fixed range, a title that fails at
any stage (fetch, parse, or persistence) ends the run with zero rows
for that title, and the committed state is exactly the concatenation of
the independent per-title contributions — every other title is
processed as if the failing one were absent. -/
theorem claim_C7 (env : Env) (n : Nat) (hmem : n ∈ TITLES)
    (hfail : titleOk env n = false) :
    (runMain env).filter (fun r => r.title == n) = [] ∧
    runMain env = (TITLES.map (contribOf env)).flatten := by
  have hrun : runMain env = (TITLES.map (contribOf env)).flatten := by
    unfold runMain
    rw [runMain_foldl]
    simp
  refine ⟨?_, hrun⟩
  rw [hrun]
  have hall : ∀ ts : List Nat,
      ((ts.map (contribOf env)).flatten).filter (fun r => r.title == n) = [] := by
    intro ts
    induction ts with
    | nil => simp
    | cons m rest ih =>
      simp only [List.map_cons, List.flatten_cons, List.filter_append, ih, List.append_nil]
      by_cases hmn : m = n
      · subst hmn
        rw [contrib_nil_of_fail env m hfail]
        rfl
      · rw [List.filter_eq_nil_iff]
        intro r hr
        have := contrib_title env m r hr
        simp [this, hmn]
  exact hall TITLES

/-- Witness for Claim C7: an HTTP 404 on title 13 leaves zero rows for
title 13 while the other 49 titles contribute independently. -/
theorem claim_C7_witness :
    13 ∈ TITLES ∧ titleOk env404 13 = false ∧
    ((runMain env404).filter (fun r => r.title == 13) = [] ∧
     runMain env404 = (TITLES.map (contribOf env404)).flatten) :=
  ⟨by decide, rfl, claim_C7 env404 13 (by decide) rfl⟩

/-! ## Claim C10: idempotence of `clean_text` -/

theorem noTagP_nil : NoTagP [] := by
  intro a b h
  exact absurd h.symm (by simp)

/-- Building block: a list headed by `c` is tag-free when the head
cannot open a matchable fragment and the rest is tag-free. -/
theorem noTagP_cons (c : Char) (l : List Char)
    (hc : c = '<' → ('>' ∉ l ∨ ∃ r, l = '>' :: r)) (hl : NoTagP l) :
    NoTagP (c :: l) := by
  intro a b h
  cases a with
  | nil =>
    rw [List.nil_append] at h
    injection h with h1 h2
    subst h2
    exact hc h1
  | cons a0 a' =>
    rw [List.cons_append] at h
    injection h with h1 h2
    exact hl a' b h2

theorem noTagP_tail (c : Char) (l : List Char) (h : NoTagP (c :: l)) : NoTagP l := by
  intro a b hab
  exact h (c :: a) b (by rw [List.cons_append, hab])

theorem noTagP_head (l : List Char) (h : NoTagP ('<' :: l)) :
    '>' ∉ l ∨ ∃ r, l = '>' :: r :=
  h [] l rfl

theorem noTagP_of_not_gt (l : List Char) (h : '>' ∉ l) : NoTagP l := by
  intro a b hab
  left
  intro hb
  apply h
  rw [hab]
  exact List.mem_append_right a (List.mem_cons_of_mem _ hb)

theorem noTagP_append_left (l₁ l₂ : List Char) (h : NoTagP (l₁ ++ l₂)) : NoTagP l₁ := by
  intro a b hab
  have h2 := h a (b ++ l₂) (by rw [hab]; simp)
  rcases h2 with h2 | ⟨r, hr⟩
  · left
    intro hb
    exact h2 (List.mem_append_left _ hb)
  · cases b with
    | nil =>
      left
      simp
    | cons b0 b' =>
      rw [List.cons_append] at hr
      injection hr with h1 _
      exact Or.inr ⟨b', by rw [h1]⟩

theorem noTagP_append_right (l₁ l₂ : List Char) (h : NoTagP (l₁ ++ l₂)) : NoTagP l₂ := by
  intro a b hab
  exact h (l₁ ++ a) b (by rw [hab, List.append_assoc])

theorem stripTagsAux_none_cons (c : Char) (rest : List Char) (hc : c ≠ '<') :
    stripTagsAux none (c :: rest) = c :: stripTagsAux none rest := by
  simp [stripTagsAux, hc]

theorem stripTagsAux_some_cons (buf : List Char) (c : Char) (rest : List Char) (hc : c ≠ '>') :
    stripTagsAux (some buf) (c :: rest) = stripTagsAux (some (c :: buf)) rest := by
  simp [stripTagsAux, hc]

/-- The tag-removal scanner emits only tag-free output. -/
theorem noTagP_stripTagsAux : ∀ l : List Char,
    NoTagP (stripTagsAux none l) ∧
    (∀ buf, '>' ∉ buf → NoTagP (stripTagsAux (some buf) l)) := by
  intro l
  induction l with
  | nil =>
    constructor
    · exact noTagP_nil
    · intro buf hbuf
      show NoTagP ('<' :: buf.reverse)
      apply noTagP_cons
      · intro _
        left
        simpa using hbuf
      · exact noTagP_of_not_gt _ (by simpa using hbuf)
  | cons c rest ih =>
    obtain ⟨ih1, ih2⟩ := ih
    constructor
    · by_cases hc : c = '<'
      · subst hc
        show NoTagP (stripTagsAux (some []) rest)
        exact ih2 [] (by simp)
      · rw [stripTagsAux_none_cons c rest hc]
        exact noTagP_cons c _ (fun h => absurd h hc) ih1
    · intro buf hbuf
      by_cases hc : c = '>'
      · subst hc
        cases buf with
        | nil =>
          show NoTagP ('<' :: '>' :: stripTagsAux none rest)
          apply noTagP_cons
          · intro _
            exact Or.inr ⟨stripTagsAux none rest, rfl⟩
          · exact noTagP_cons '>' _ (fun h => absurd h (by decide)) ih1
        | cons b0 bs =>
          show NoTagP (' ' :: stripTagsAux none rest)
          exact noTagP_cons ' ' _ (fun h => absurd h (by decide)) ih1
      · rw [stripTagsAux_some_cons buf c rest hc]
        apply ih2 (c :: buf)
        intro hmem
        rcases List.mem_cons.mp hmem with h | h
        · exact hc h.symm
        · exact hbuf h

/-- With no closing bracket left, the buffering state flushes the
opening bracket, the buffered interior, and the rest verbatim. -/
theorem stripTagsAux_flush : ∀ (m buf : List Char), '>' ∉ m →
    stripTagsAux (some buf) m = '<' :: buf.reverse ++ m := by
  intro m
  induction m with
  | nil =>
    intro buf _
    show '<' :: buf.reverse = '<' :: buf.reverse ++ []
    simp
  | cons c m' ih =>
    intro buf h
    have hc : c ≠ '>' := fun hcc => h (hcc ▸ List.mem_cons_self _ _)
    rw [stripTagsAux_some_cons buf c m' hc,
        ih (c :: buf) (fun hm => h (List.mem_cons_of_mem _ hm))]
    simp

/-- The tag-removal scanner is the identity on tag-free input. -/
theorem stripTagsAux_id : ∀ l : List Char, NoTagP l → stripTagsAux none l = l := by
  intro l
  induction l with
  | nil => intro _; rfl
  | cons c rest ih =>
    intro h
    by_cases hc : c = '<'
    · subst hc
      rcases noTagP_head rest h with hng | ⟨r, hr⟩
      · show stripTagsAux (some []) rest = '<' :: rest
        rw [stripTagsAux_flush rest [] hng]
        rfl
      · subst hr
        have hrest : stripTagsAux none ('>' :: r) = '>' :: r := ih (noTagP_tail _ _ h)
        rw [stripTagsAux_none_cons '>' r (by decide)] at hrest
        injection hrest with _ h2
        show '<' :: '>' :: stripTagsAux none r = '<' :: '>' :: r
        rw [h2]
    · rw [stripTagsAux_none_cons c rest hc, ih (noTagP_tail _ _ h)]

theorem collapseWs_one (c : Char) : collapseWs [c] = if isWsC c then [' '] else [c] := rfl

theorem collapseWs_one_ws (c : Char) (hc : isWsC c = true) : collapseWs [c] = [' '] := by
  rw [collapseWs_one, hc]
  simp

theorem collapseWs_one_nw (c : Char) (hc : isWsC c = false) : collapseWs [c] = [c] := by
  rw [collapseWs_one, hc]
  simp

theorem collapseWs_two_ws_ws (a b : Char) (rest : List Char)
    (ha : isWsC a = true) (hb : isWsC b = true) :
    collapseWs (a :: b :: rest) = collapseWs (b :: rest) := by
  simp [collapseWs, ha, hb]

theorem collapseWs_two_ws_nw (a b : Char) (rest : List Char)
    (ha : isWsC a = true) (hb : isWsC b = false) :
    collapseWs (a :: b :: rest) = ' ' :: collapseWs (b :: rest) := by
  simp [collapseWs, ha, hb]

theorem collapseWs_two_nw (a b : Char) (rest : List Char) (ha : isWsC a = false) :
    collapseWs (a :: b :: rest) = a :: collapseWs (b :: rest) := by
  simp [collapseWs, ha]

/-- Characters of the collapsed list come from the input or are the
inserted single space. -/
theorem mem_collapseWs : ∀ (l : List Char) (x : Char), x ∈ collapseWs l → x ∈ l ∨ x = ' ' := by
  intro l
  induction l with
  | nil => intro x hx; cases hx
  | cons a t ih =>
    cases t with
    | nil =>
      intro x hx
      cases ha : isWsC a
      · rw [collapseWs_one_nw a ha] at hx
        exact Or.inl hx
      · rw [collapseWs_one_ws a ha] at hx
        exact Or.inr (List.mem_singleton.mp hx)
    | cons b rest =>
      intro x hx
      cases ha : isWsC a
      · rw [collapseWs_two_nw a b rest ha] at hx
        rcases List.mem_cons.mp hx with h | h
        · exact Or.inl (by rw [h]; exact List.mem_cons_self _ _)
        · rcases ih x h with h' | h'
          · exact Or.inl (List.mem_cons_of_mem _ h')
          · exact Or.inr h'
      · cases hb : isWsC b
        · rw [collapseWs_two_ws_nw a b rest ha hb] at hx
          rcases List.mem_cons.mp hx with h | h
          · exact Or.inr h
          · rcases ih x h with h' | h'
            · exact Or.inl (List.mem_cons_of_mem _ h')
            · exact Or.inr h'
        · rw [collapseWs_two_ws_ws a b rest ha hb] at hx
          rcases ih x hx with h' | h'
          · exact Or.inl (List.mem_cons_of_mem _ h')
          · exact Or.inr h'

/-- The collapsed list of a non-whitespace-headed input keeps its head. -/
theorem collapseWs_head_nw (b : Char) (rest : List Char) (hb : isWsC b = false) :
    ∃ t, collapseWs (b :: rest) = b :: t := by
  cases rest with
  | nil => exact ⟨[], collapseWs_one_nw b hb⟩
  | cons r1 r' => exact ⟨collapseWs (r1 :: r'), collapseWs_two_nw b r1 r' hb⟩

theorem noAdjWs_cons (c : Char) (l : List Char) (h : NoAdjWs l)
    (hc : ∀ x t, l = x :: t → ¬(isWsC c = true ∧ isWsC x = true)) : NoAdjWs (c :: l) := by
  cases l with
  | nil => trivial
  | cons x t => exact ⟨hc x t rfl, h⟩

theorem noAdjWs_tail (c : Char) (l : List Char) (h : NoAdjWs (c :: l)) : NoAdjWs l := by
  cases l with
  | nil => trivial
  | cons x t => exact h.2

/-- The collapsed list never has two adjacent whitespace characters. -/
theorem noAdjWs_collapseWs : ∀ l : List Char, NoAdjWs (collapseWs l) := by
  intro l
  induction l with
  | nil => trivial
  | cons a t ih =>
    cases t with
    | nil =>
      cases ha : isWsC a
      · rw [collapseWs_one_nw a ha]; trivial
      · rw [collapseWs_one_ws a ha]; trivial
    | cons b rest =>
      cases ha : isWsC a
      · rw [collapseWs_two_nw a b rest ha]
        apply noAdjWs_cons _ _ ih
        intro x t' _ hcon
        rw [ha] at hcon
        exact absurd hcon.1 (by simp)
      · cases hb : isWsC b
        · rw [collapseWs_two_ws_nw a b rest ha hb]
          obtain ⟨t', ht'⟩ := collapseWs_head_nw b rest hb
          rw [ht'] at ih ⊢
          refine ⟨?_, ih⟩
          intro hcon
          rw [hb] at hcon
          exact absurd hcon.2 (by simp)
        · rw [collapseWs_two_ws_ws a b rest ha hb]
          exact ih

/-- Every whitespace character of the collapsed list is the space. -/
theorem wsSpace_collapseWs : ∀ (l : List Char) (x : Char),
    x ∈ collapseWs l → isWsC x = true → x = ' ' := by
  intro l
  induction l with
  | nil => intro x hx; cases hx
  | cons a t ih =>
    cases t with
    | nil =>
      intro x hx hws
      cases ha : isWsC a
      · rw [collapseWs_one_nw a ha] at hx
        rw [List.mem_singleton.mp hx, ha] at hws
        cases hws
      · rw [collapseWs_one_ws a ha] at hx
        exact List.mem_singleton.mp hx
    | cons b rest =>
      intro x hx hws
      cases ha : isWsC a
      · rw [collapseWs_two_nw a b rest ha] at hx
        rcases List.mem_cons.mp hx with h | h
        · rw [h] at hws
          rw [ha] at hws
          cases hws
        · exact ih x h hws
      · cases hb : isWsC b
        · rw [collapseWs_two_ws_nw a b rest ha hb] at hx
          rcases List.mem_cons.mp hx with h | h
          · exact h
          · exact ih x h hws
        · rw [collapseWs_two_ws_ws a b rest ha hb] at hx
          exact ih x hx hws

/-- Collapsing is the identity on already-normal lists. -/
theorem collapseWs_id : ∀ l : List Char,
    (∀ x ∈ l, isWsC x = true → x = ' ') → NoAdjWs l → collapseWs l = l := by
  intro l
  induction l with
  | nil => intro _ _; rfl
  | cons a t ih =>
    cases t with
    | nil =>
      intro hall _
      cases ha : isWsC a
      · rw [collapseWs_one_nw a ha]
      · rw [collapseWs_one_ws a ha, hall a (List.mem_cons_self _ _) ha]
    | cons b rest =>
      intro hall hadj
      have hadj' : NoAdjWs (b :: rest) := noAdjWs_tail _ _ hadj
      have hall' : ∀ x ∈ b :: rest, isWsC x = true → x = ' ' :=
        fun x hx => hall x (List.mem_cons_of_mem _ hx)
      cases ha : isWsC a
      · rw [collapseWs_two_nw a b rest ha, ih hall' hadj']
      · have hb : isWsC b = false := by
          cases hb' : isWsC b
          · rfl
          · exact absurd ⟨ha, hb'⟩ hadj.1
        rw [collapseWs_two_ws_nw a b rest ha hb, ih hall' hadj',
            hall a (List.mem_cons_self _ _) ha]

/-- Collapsing whitespace preserves freedom from markup fragments. -/
theorem collapse_noTagP : ∀ l : List Char, NoTagP l → NoTagP (collapseWs l) := by
  intro l
  induction l with
  | nil => intro _; exact noTagP_nil
  | cons a t ih =>
    cases t with
    | nil =>
      intro h
      cases ha : isWsC a
      · rw [collapseWs_one_nw a ha]
        exact h
      · rw [collapseWs_one_ws a ha]
        exact noTagP_cons ' ' [] (fun hc => absurd hc (by decide)) noTagP_nil
    | cons b rest =>
      intro h
      have htl : NoTagP (b :: rest) := noTagP_tail _ _ h
      cases ha : isWsC a
      · rw [collapseWs_two_nw a b rest ha]
        apply noTagP_cons a _ _ (ih htl)
        intro hc
        subst hc
        rcases noTagP_head _ h with hng | ⟨r, hr⟩
        · left
          intro hmem
          rcases mem_collapseWs _ _ hmem with h' | h'
          · exact hng h'
          · exact absurd h' (by decide)
        · injection hr with hb hrest
          subst hb
          obtain ⟨t', ht'⟩ := collapseWs_head_nw '>' rest (by decide)
          exact Or.inr ⟨t', ht'⟩
      · cases hb : isWsC b
        · rw [collapseWs_two_ws_nw a b rest ha hb]
          exact noTagP_cons ' ' _ (fun hc => absurd hc (by decide)) (ih htl)
        · rw [collapseWs_two_ws_ws a b rest ha hb]
          exact ih htl

/-- The end-trimmed list is a leading segment of the input. -/
theorem pyDropEndWs_append (l : List Char) :
    l = pyDropEndWs l ++ (l.reverse.takeWhile isWsC).reverse := by
  have h := List.takeWhile_append_dropWhile (p := isWsC) (l := l.reverse)
  have h2 := congrArg List.reverse h
  rw [List.reverse_append, List.reverse_reverse] at h2
  exact h2.symm

theorem mem_pyDropEndWs (l : List Char) (x : Char) (hx : x ∈ pyDropEndWs l) : x ∈ l := by
  unfold pyDropEndWs at hx
  rw [List.mem_reverse] at hx
  exact List.mem_reverse.mp ((List.dropWhile_sublist isWsC).subset hx)

theorem noAdjWs_dropWhile (p : Char → Bool) : ∀ l : List Char,
    NoAdjWs l → NoAdjWs (l.dropWhile p) := by
  intro l
  induction l with
  | nil => intro _; trivial
  | cons c t ih =>
    intro h
    rw [List.dropWhile_cons]
    by_cases hc : p c = true
    · simp only [hc, if_true]
      exact ih (noAdjWs_tail _ _ h)
    · simp only [hc, if_false]
      exact h

theorem noAdjWs_append_left : ∀ l₁ l₂ : List Char, NoAdjWs (l₁ ++ l₂) → NoAdjWs l₁ := by
  intro l₁
  induction l₁ with
  | nil => intro _ _; trivial
  | cons a t ih =>
    cases t with
    | nil => intro l₂ _; trivial
    | cons b rest =>
      intro l₂ h
      exact ⟨h.1, ih l₂ h.2⟩

theorem noAdjWs_pyDropEndWs (l : List Char) (h : NoAdjWs l) : NoAdjWs (pyDropEndWs l) := by
  have hdec := pyDropEndWs_append l
  rw [hdec] at h
  exact noAdjWs_append_left _ _ h

theorem noTagP_pyStrip (l : List Char) (h : NoTagP l) : NoTagP (pyStrip l) := by
  unfold pyStrip
  have hm : NoTagP (l.dropWhile isWsC) := by
    have hd := List.takeWhile_append_dropWhile (p := isWsC) (l := l)
    exact noTagP_append_right _ _ (by rw [hd]; exact h)
  have hdec := pyDropEndWs_append (l.dropWhile isWsC)
  rw [hdec] at hm
  exact noTagP_append_left _ _ hm

theorem wsSpace_pyStrip (l : List Char) (hall : ∀ x ∈ l, isWsC x = true → x = ' ') :
    ∀ x ∈ pyStrip l, isWsC x = true → x = ' ' := by
  intro x hx
  apply hall
  unfold pyStrip at hx
  exact (List.dropWhile_sublist isWsC).subset (mem_pyDropEndWs _ x hx)

theorem noAdjWs_pyStrip (l : List Char) (h : NoAdjWs l) : NoAdjWs (pyStrip l) :=
  noAdjWs_pyDropEndWs _ (noAdjWs_dropWhile _ _ h)

theorem dropWhile_head_false (p : Char → Bool) : ∀ (l : List Char) (x : Char) (xs : List Char),
    l.dropWhile p = x :: xs → p x = false := by
  intro l
  induction l with
  | nil =>
    intro x xs h
    simp at h
  | cons c t ih =>
    intro x xs h
    rw [List.dropWhile_cons] at h
    by_cases hc : p c = true
    · rw [if_pos hc] at h
      exact ih x xs h
    · rw [if_neg hc] at h
      injection h with h1 _
      rw [← h1]
      exact eq_false_of_ne_true hc

theorem dropWhile_dropWhile (p : Char → Bool) : ∀ l : List Char,
    (l.dropWhile p).dropWhile p = l.dropWhile p := by
  intro l
  cases hE : l.dropWhile p with
  | nil => rfl
  | cons x xs =>
    rw [List.dropWhile_cons, dropWhile_head_false p l x xs hE]
    simp

theorem pyDropEndWs_idem (l : List Char) : pyDropEndWs (pyDropEndWs l) = pyDropEndWs l := by
  unfold pyDropEndWs
  rw [List.reverse_reverse, dropWhile_dropWhile]

theorem dropWhile_pyDropEndWs (l : List Char) :
    (pyDropEndWs (l.dropWhile isWsC)).dropWhile isWsC = pyDropEndWs (l.dropWhile isWsC) := by
  cases hE : pyDropEndWs (l.dropWhile isWsC) with
  | nil => rfl
  | cons x xs =>
    rw [List.dropWhile_cons]
    have hdec := pyDropEndWs_append (l.dropWhile isWsC)
    rw [hE] at hdec
    have hx : isWsC x = false :=
      dropWhile_head_false isWsC l x _ (hdec.trans (List.cons_append x xs _))
    rw [hx]
    simp

/-- `str.strip` is idempotent. -/
theorem pyStrip_idem (l : List Char) : pyStrip (pyStrip l) = pyStrip l := by
  show pyDropEndWs ((pyDropEndWs (l.dropWhile isWsC)).dropWhile isWsC) =
    pyDropEndWs (l.dropWhile isWsC)
  rw [dropWhile_pyDropEndWs, pyDropEndWs_idem]

/-- Character-list core of Claim C10: one full cleaning pass yields a
fixed point of the cleaning pipeline. -/
theorem clean_text_idem_data (l : List Char) :
    pyStrip (collapseWs (stripTagsAux none (pyStrip (collapseWs (stripTagsAux none l))))) =
      pyStrip (collapseWs (stripTagsAux none l)) := by
  have hnt : NoTagP (pyStrip (collapseWs (stripTagsAux none l))) :=
    noTagP_pyStrip _ (collapse_noTagP _ (noTagP_stripTagsAux l).1)
  have h1 := stripTagsAux_id _ hnt
  have hws : ∀ x ∈ pyStrip (collapseWs (stripTagsAux none l)), isWsC x = true → x = ' ' :=
    wsSpace_pyStrip _ (fun y hy => wsSpace_collapseWs _ y hy)
  have hadj : NoAdjWs (pyStrip (collapseWs (stripTagsAux none l))) :=
    noAdjWs_pyStrip _ (noAdjWs_collapseWs _)
  have h2 := collapseWs_id _ hws hadj
  rw [h1, h2, pyStrip_idem]

/-- Claim C10: `clean_text` is idempotent — cleaning an already-cleaned
string changes nothing. -/
theorem claim_C10 (s : String) : clean_text (clean_text s) = clean_text s := by
  show String.mk (pyStrip (collapseWs (stripTagsAux none
        (pyStrip (collapseWs (stripTagsAux none s.data)))))) =
      String.mk (pyStrip (collapseWs (stripTagsAux none s.data)))
  exact congrArg String.mk (clean_text_idem_data s.data)
